import Mathlib

/-!
Shallow embedding of the product-matching engine of
`ai_matching/product_matcher.py`: product classification, size extraction
and size similarity, the forbidden-match rule engine, hybrid name
similarity, confidence scoring and match finding.

Modelling conventions: Python floats are modelled as exact rationals;
Python strings are Lean strings, with the character-level helpers below
giving Python's `in`, `lower()`, `split()`, `replace` and `strip`
semantics on their `List Char` representation (restricted to the ASCII
behaviour the product names exercise); the external sentence-embedding
model is an abstract per-name encoding, and the external fuzzy scorer is
the normalised indel similarity of the token-sorted strings, exactly the
quantity `fuzz.token_sort_ratio` scales to percent.  Dictionaries and
sets of the loaded configuration become association lists / lists, with
list order standing for the fixed iteration order of one loaded
instance.
-/

set_option maxRecDepth 8000

namespace PM

/-- Python `s.lower()` (ASCII case). -/
def pyLower (s : String) : String := String.mk (s.data.map Char.toLower)

/-- Python substring test `pat in s` on the character lists. -/
def strContainsL : List Char → List Char → Bool
  | _, [] => true
  | [], _ :: _ => false
  | c :: cs, p :: ps => List.isPrefixOf (p :: ps) (c :: cs) || strContainsL cs (p :: ps)

/-- Python `pat in s` for strings. -/
def strContains (s pat : String) : Bool := strContainsL s.data pat.data

/-- Python whitespace characters relevant to `str.split()` / `str.strip()`. -/
def isWs (c : Char) : Bool := c = ' ' || c = '\t' || c = '\n' || c = '\r'

/-- Python `s.split()` on character lists: whitespace-separated words, no empties. -/
def splitWsAux : List Char → List Char → List String
  | [], acc => if acc.isEmpty then [] else [String.mk acc.reverse]
  | c :: cs, acc =>
      if isWs c then
        if acc.isEmpty then splitWsAux cs [] else String.mk acc.reverse :: splitWsAux cs []
      else splitWsAux cs (c :: acc)

/-- Python `s.split()` (split on whitespace runs, dropping empty tokens). -/
def pySplit (s : String) : List String := splitWsAux s.data []

/-- Python `s.strip()` on character lists. -/
def trimWs (l : List Char) : List Char :=
  ((l.dropWhile isWs).reverse.dropWhile isWs).reverse

/-- Python `s.strip()`. -/
def pyStrip (s : String) : String := String.mk (trimWs s.data)

/-- Python `s.split(sep)` for a one-character separator, keeping empty pieces. -/
def splitCharAux (sep : Char) : List Char → List Char → List String
  | [], acc => [String.mk acc.reverse]
  | c :: cs, acc =>
      if c = sep then String.mk acc.reverse :: splitCharAux sep cs []
      else splitCharAux sep cs (c :: acc)

/-- Python `s.split(sep)` for a one-character separator. -/
def pySplitChar (s : String) (sep : Char) : List String := splitCharAux sep s.data []

/-- One step of Python `s.replace(pat, rep)` with fuel (the fuel is the length
of the list, which bounds the number of steps; the fuel-exhausted branch is
unreachable for that choice). -/
def pyReplaceAux (pat rep : List Char) : ℕ → List Char → List Char
  | 0, l => l
  | _ + 1, [] => []
  | fuel + 1, c :: cs =>
      if pat ≠ [] && List.isPrefixOf pat (c :: cs) then
        rep ++ pyReplaceAux pat rep fuel (List.drop pat.length (c :: cs))
      else c :: pyReplaceAux pat rep fuel cs

/-- Python `s.replace(pat, rep)` for a non-empty pattern: replaces every
non-overlapping occurrence left to right.  (The engine only replaces
previously found substrings, so the empty-pattern corner of Python's
`replace` is never reached; it is mapped to the identity here.) -/
def pyReplace (s pat rep : String) : String :=
  String.mk (pyReplaceAux pat.data rep.data s.data.length s.data)

/-- Python `' '.join(words)`. -/
def joinSpace : List String → String
  | [] => ""
  | [w] => w
  | w :: ws => w ++ " " ++ joinSpace ws

/-- Strict lexicographic comparison of character lists by code point — the
order Python uses to compare strings. -/
def listLt : List Char → List Char → Bool
  | [], [] => false
  | [], _ :: _ => true
  | _ :: _, [] => false
  | a :: as, b :: bs => a.toNat < b.toNat || (a.toNat = b.toNat && listLt as bs)

/-- Stable insertion of `x` into `l`: `x` goes before the first element `y`
with `r x y` (read `r x y` as "`x` may stay before `y`").  With
`r x y = (key y ≤ key x)` this is one step of Python's stable descending
sort. -/
def pyInsert (r : α → α → Bool) (x : α) : List α → List α
  | [] => [x]
  | y :: ys => if r x y then x :: y :: ys else y :: pyInsert r x ys

/-- Stable sort with respect to `r` (insertion formulation; Python's
`list.sort` is stable, and a stable sort is unique for a total preorder, so
any stable algorithm gives the same list). -/
def pySort (r : α → α → Bool) : List α → List α
  | [] => []
  | x :: xs => pyInsert r x (pySort r xs)

/-- Size record of `product_matcher.py` (`SizeInfo` dataclass). -/
structure SizeInfo where
  value : ℚ
  unit : String
  unit_type : String
  original : String
deriving DecidableEq, Repr

/-- `ProductMatcher.calculate_size_similarity`, translated clause by clause. -/
def calculate_size_similarity (size1 size2 : SizeInfo) : ℚ :=
  if size1.unit_type ≠ size2.unit_type then
    if size1.unit_type = "unknown" ∨ size2.unit_type = "unknown" then 3/10
    else 1/10
  else if size1.value = 0 ∨ size2.value = 0 then 1/2
  else
    let ratio := min size1.value size2.value / max size1.value size2.value
    if |ratio - 1| < 1/50 then 1
    else if ratio < 1/2 then ratio * (3/10)
    else if ratio < 3/4 then ratio * (6/10)
    else ratio

/-- The size-similarity formula exactly as the specification words it:
0.3 for differing unit types with an unknown side, 0.1 for differing known
unit types, 0.5 when unit types agree and a value is missing, and the
banded ratio otherwise. -/
def size_similarity_spec (a b : SizeInfo) : ℚ :=
  if a.unit_type ≠ b.unit_type ∧ (a.unit_type = "unknown" ∨ b.unit_type = "unknown") then 3/10
  else if a.unit_type ≠ b.unit_type then 1/10
  else if a.value = 0 ∨ b.value = 0 then 1/2
  else
    let ratio := min a.value b.value / max a.value b.value
    if |ratio - 1| < 1/50 then 1
    else if ratio < 1/2 then ratio * (3/10)
    else if ratio < 3/4 then ratio * (6/10)
    else ratio

/-- The banded ratio function applied once both unit types agree and both
values are positive; shape of the last four clauses of
`calculate_size_similarity`. -/
def rateBand (r : ℚ) : ℚ :=
  if |r - 1| < 1/50 then 1
  else if r < 1/2 then r * (3/10)
  else if r < 3/4 then r * (6/10)
  else r

theorem calculate_size_similarity_eq_rateBand (a b : SizeInfo)
    (hu : a.unit_type = b.unit_type) (ha : a.value ≠ 0) (hb : b.value ≠ 0) :
    calculate_size_similarity a b = rateBand (min a.value b.value / max a.value b.value) := by
  unfold calculate_size_similarity rateBand
  simp [hu, ha, hb]

theorem rateBand_mono (r1 r2 : ℚ) (h1 : 0 < r1) (h12 : r1 ≤ r2) (h2 : r2 ≤ 1) :
    rateBand r1 ≤ rateBand r2 := by
  have e1 : |r1 - 1| = 1 - r1 := by
    rw [abs_sub_comm, abs_of_nonneg] ; linarith
  have e2 : |r2 - 1| = 1 - r2 := by
    rw [abs_sub_comm, abs_of_nonneg] ; linarith
  unfold rateBand
  rw [e1, e2]
  split_ifs <;> nlinarith

/-- C4: for all size records, `calculate_size_similarity` returns exactly the
values the specification lists, in the order the specification lists them. -/
theorem size_similarity_matches_spec (a b : SizeInfo) :
    calculate_size_similarity a b = size_similarity_spec a b := by
  unfold calculate_size_similarity size_similarity_spec
  by_cases h1 : a.unit_type = b.unit_type <;>
    by_cases h2 : a.unit_type = "unknown" ∨ b.unit_type = "unknown" <;>
      simp [h1, h2]

/-- C7: for pairs with the same known unit type and positive values, size
similarity is monotonically non-increasing as the magnitude ratio decreases,
and every positive-sized record has similarity 1 with itself. -/
theorem size_similarity_monotone_and_reflexive :
    (∀ a b c d : SizeInfo,
        a.unit_type = b.unit_type → a.unit_type ≠ "unknown" →
        c.unit_type = d.unit_type → c.unit_type ≠ "unknown" →
        0 < a.value → 0 < b.value → 0 < c.value → 0 < d.value →
        min a.value b.value / max a.value b.value
          ≤ min c.value d.value / max c.value d.value →
        calculate_size_similarity a b ≤ calculate_size_similarity c d) ∧
    (∀ x : SizeInfo, 0 < x.value → calculate_size_similarity x x = 1) := by
  constructor
  · intro a b c d hab _ hcd _ ha hb hc hd hr
    rw [calculate_size_similarity_eq_rateBand a b hab (ne_of_gt ha) (ne_of_gt hb),
        calculate_size_similarity_eq_rateBand c d hcd (ne_of_gt hc) (ne_of_gt hd)]
    have hmin1 : 0 < min a.value b.value := lt_min ha hb
    have hmax1 : 0 < max a.value b.value := lt_max_of_lt_left ha
    have hmin2 : min c.value d.value ≤ max c.value d.value :=
      le_trans (min_le_left _ _) (le_max_left _ _)
    have hmax2 : 0 < max c.value d.value := lt_max_of_lt_left hc
    exact rateBand_mono _ _ (div_pos hmin1 hmax1) hr ((div_le_one hmax2).mpr hmin2)
  · intro x hx
    have hxx : min x.value x.value / max x.value x.value = 1 := by
      rw [min_self, max_self, div_self (ne_of_gt hx)]
    rw [calculate_size_similarity_eq_rateBand x x rfl (ne_of_gt hx) (ne_of_gt hx), hxx]
    unfold rateBand
    norm_num

/-! Model of `re.search` for the size pattern
`(\d+(?:\.\d+)?)\s*(kg|g|gm|lb|oz|ml|l|pcs?|each)` with `IGNORECASE`.
For this pattern greedy matching never needs to backtrack (no unit starts
with a digit, a dot or whitespace), so the leftmost match is computed by
trying a deterministic greedy match at every start position, left to
right.  The ordered alternation is kept: at a given position the first
alternative that matches supplies group 2, which is why a trailing
`gm` is captured as `g`. -/

/-- The unit alternation in the regex's order; `pcs?` tries `pcs` then `pc`. -/
def unitAlternatives : List (List Char) :=
  ["kg".data, "g".data, "gm".data, "lb".data, "oz".data, "ml".data, "l".data,
   "pcs".data, "pc".data, "each".data]

/-- Case-insensitive prefix test of a lowercase pattern against the text. -/
def lowerPrefixOf : List Char → List Char → Bool
  | [], _ => true
  | _ :: _, [] => false
  | p :: ps, c :: cs => p = c.toLower && lowerPrefixOf ps cs

/-- First alternative of the unit alternation matching at this position. -/
def findUnit (l : List Char) : Option (List Char) :=
  unitAlternatives.find? (fun u => lowerPrefixOf u l)

/-- Groups of one successful match of the size regex: the number text
(group 1), the lowercased unit (group 2 after `.lower()`), and the whole
match (group 0, original characters). -/
structure ReMatch where
  g1 : List Char
  unit : List Char
  g0 : List Char
deriving DecidableEq, Repr

/-- Stage 3 of a match attempt: after the number text `ds ++ fr`, consume
`\s*` greedily from `r2` and try the unit alternation; build the groups on
success. -/
def matchSizeRest (ds fr r2 : List Char) : Option ReMatch :=
  (findUnit (r2.dropWhile isWs)).map
    (fun u => ⟨ds ++ fr, u, ds ++ fr ++ r2.takeWhile isWs ++ (r2.dropWhile isWs).take u.length⟩)

/-- Stage 2 of a match attempt: after the digit run `ds`, take the optional
fractional part `(\.\d+)?` greedily from `r1`. -/
def matchSizeNum (ds r1 : List Char) : Option ReMatch :=
  if r1.head? = some '.' ∧ ¬(r1.tail.takeWhile Char.isDigit).isEmpty then
    matchSizeRest ds ('.' :: r1.tail.takeWhile Char.isDigit) (r1.tail.dropWhile Char.isDigit)
  else matchSizeRest ds [] r1

/-- Greedy match of the size regex starting exactly at this position: `\d+`
must match first. -/
def matchSizeAt (l : List Char) : Option ReMatch :=
  if (l.takeWhile Char.isDigit).isEmpty then none
  else matchSizeNum (l.takeWhile Char.isDigit) (l.dropWhile Char.isDigit)

/-- `re.search`: the match at the leftmost start position where one exists. -/
def searchSize : List Char → Option ReMatch
  | [] => none
  | c :: cs => (matchSizeAt (c :: cs)).or (searchSize cs)

/-- Decimal value of a digit run. -/
def digitsToNat : List Char → ℕ :=
  List.foldl (fun n c => 10 * n + (c.toNat - 48)) 0

/-- Python `float(...)` on the number text group 1 (digits with an optional
fractional part), as an exact rational. -/
def floatOfNumChars (g : List Char) : ℚ :=
  let ip := g.takeWhile Char.isDigit
  let rest := g.dropWhile Char.isDigit
  match rest with
  | '.' :: fs => (digitsToNat ip : ℚ) + (digitsToNat fs : ℚ) / ((10 : ℚ) ^ fs.length)
  | _ => (digitsToNat ip : ℚ)

/-- The `conversions` table of `extract_size` (0.5-precision floats as exact
rationals: 453.6 and 28.35). -/
def conversions : List (List Char × ℚ × String × String) :=
  [("kg".data, (1000, "g", "weight")),
   ("lb".data, (4536/10, "g", "weight")),
   ("oz".data, (2835/100, "g", "weight")),
   ("l".data, (1000, "ml", "volume")),
   ("g".data, (1, "g", "weight")),
   ("gm".data, (1, "g", "weight")),
   ("ml".data, (1, "ml", "volume")),
   ("pcs".data, (1, "pcs", "count")),
   ("each".data, (1, "each", "count"))]

/-- `ProductMatcher.extract_size`. -/
def extract_size (name : String) : SizeInfo :=
  match searchSize name.data with
  | none => ⟨0, "", "unknown", ""⟩
  | some m =>
      let value := floatOfNumChars m.g1
      match conversions.lookup m.unit with
      | some (factor, baseUnit, unitType) =>
          ⟨value * factor, baseUnit, unitType, String.mk m.g0⟩
      | none => ⟨value, String.mk m.unit, "unknown", String.mk m.g0⟩

theorem takeWhile_append_all {p : Char → Bool} (ds l : List Char)
    (h : ∀ c ∈ ds, p c = true) :
    (ds ++ l).takeWhile p = ds ++ l.takeWhile p := by
  induction ds with
  | nil => simp
  | cons a as ih =>
      have ha : p a = true := h a (List.mem_cons_self a as)
      simp only [List.cons_append, List.takeWhile_cons, ha, if_true]
      rw [ih (fun c hc => h c (List.mem_cons_of_mem a hc))]

theorem dropWhile_append_all {p : Char → Bool} (ds l : List Char)
    (h : ∀ c ∈ ds, p c = true) :
    (ds ++ l).dropWhile p = l.dropWhile p := by
  induction ds with
  | nil => simp
  | cons a as ih =>
      have ha : p a = true := h a (List.mem_cons_self a as)
      simp only [List.cons_append, List.dropWhile_cons, ha, if_true]
      exact ih (fun c hc => h c (List.mem_cons_of_mem a hc))

theorem matchSizeAt_nondigit (a : Char) (l : List Char) (ha : a.isDigit = false) :
    matchSizeAt (a :: l) = none := by
  unfold matchSizeAt
  simp [List.takeWhile_cons, ha]

theorem findUnit_g (X : List Char) : findUnit ('g' :: X) = some ['g'] := rfl

theorem data_mk (l : List Char) : (String.mk l).data = l := rfl

theorem matchSizeRest_gm (ds fr X : List Char) :
    matchSizeRest ds fr (' ' :: 'g' :: X) = some ⟨ds ++ fr, ['g'], (ds ++ fr) ++ [' ', 'g']⟩ := by
  have hw1 : isWs ' ' = true := rfl
  have hw2 : isWs 'g' = false := rfl
  have h1 : List.dropWhile isWs (' ' :: 'g' :: X) = 'g' :: X := by
    simp [List.dropWhile_cons, hw1, hw2]
  have h2 : List.takeWhile isWs (' ' :: 'g' :: X) = [' '] := by
    simp [List.takeWhile_cons, hw1, hw2]
  unfold matchSizeRest
  rw [h1, h2, findUnit_g]
  simp [List.take_succ_cons, List.append_assoc]

theorem matchSizeAt_num_gm (ip mid X : List Char)
    (hip : ip ≠ []) (hipd : ∀ c ∈ ip, c.isDigit = true)
    (hmid : mid = [] ∨ ∃ fs, fs ≠ [] ∧ (∀ c ∈ fs, c.isDigit = true) ∧ mid = '.' :: fs) :
    matchSizeAt (ip ++ (mid ++ (' ' :: 'g' :: X)))
      = some ⟨ip ++ mid, ['g'], (ip ++ mid) ++ [' ', 'g']⟩ := by
  have hspd : (' ').isDigit = false := rfl
  have hdotd : ('.').isDigit = false := rfl
  have h1 : (mid ++ (' ' :: 'g' :: X)).takeWhile Char.isDigit = [] := by
    rcases hmid with h | ⟨fs, _, _, h⟩ <;> subst h <;>
      simp [List.takeWhile_cons, hspd, hdotd]
  have h2 : (mid ++ (' ' :: 'g' :: X)).dropWhile Char.isDigit = mid ++ (' ' :: 'g' :: X) := by
    rcases hmid with h | ⟨fs, _, _, h⟩ <;> subst h <;>
      simp [List.dropWhile_cons, hspd, hdotd]
  have hTW : (ip ++ (mid ++ (' ' :: 'g' :: X))).takeWhile Char.isDigit = ip := by
    rw [takeWhile_append_all ip _ hipd, h1, List.append_nil]
  have hDW : (ip ++ (mid ++ (' ' :: 'g' :: X))).dropWhile Char.isDigit = mid ++ (' ' :: 'g' :: X) := by
    rw [dropWhile_append_all ip _ hipd, h2]
  have hne : ip.isEmpty = false := by
    cases ip with
    | nil => exact absurd rfl hip
    | cons a as => rfl
  unfold matchSizeAt
  rw [hTW, hDW, hne]
  simp only [Bool.false_eq_true, if_false]
  rcases hmid with h | ⟨fs, hfs, hfsd, h⟩ <;> subst h
  · unfold matchSizeNum
    simp only [List.nil_append, List.head?_cons, List.tail_cons]
    rw [if_neg (by simp)]
    exact matchSizeRest_gm ip [] X
  · unfold matchSizeNum
    simp only [List.cons_append, List.head?_cons, List.tail_cons]
    have hfsTW : (fs ++ (' ' :: 'g' :: X)).takeWhile Char.isDigit = fs := by
      rw [takeWhile_append_all fs _ hfsd]
      simp [List.takeWhile_cons, hspd]
    have hfsDW : (fs ++ (' ' :: 'g' :: X)).dropWhile Char.isDigit = ' ' :: 'g' :: X := by
      rw [dropWhile_append_all fs _ hfsd]
      simp [List.dropWhile_cons, hspd]
    rw [hfsTW, hfsDW]
    have hfsne : fs.isEmpty = false := by
      cases fs with
      | nil => exact absurd rfl hfs
      | cons a as => rfl
    rw [if_pos (by simp [hfsne])]
    exact matchSizeRest_gm ip ('.' :: fs) X

theorem searchSize_skip_nondigits (pre l : List Char)
    (h : ∀ c ∈ pre, c.isDigit = false) :
    searchSize (pre ++ l) = searchSize l := by
  induction pre with
  | nil => simp
  | cons a as ih =>
      have ha : a.isDigit = false := h a (List.mem_cons_self a as)
      rw [List.cons_append]
      show (matchSizeAt (a :: (as ++ l))).or (searchSize (as ++ l)) = searchSize l
      rw [matchSizeAt_nondigit a _ ha, Option.none_or]
      exact ih (fun c hc => h c (List.mem_cons_of_mem a hc))

/-- C10: a first size token `N gm` is read exactly like `N g`: the ordered
alternation tries `g` before `gm`, so the match consumes only the `g`, and the
`conversions` rows for `g` and `gm` coincide anyway; the resulting record has
the numeric value of `N`, unit `g` and unit type `weight`, and is identical to
the record extracted from the same name written with unit `g`.  `pre` is any
digit-free prefix, `num` the digit text of `N` (with optional fractional
part), `rest` anything following the token. -/
theorem extract_size_gm (pre ip mid rest num : List Char)
    (hpre : ∀ c ∈ pre, c.isDigit = false)
    (hip : ip ≠ []) (hipd : ∀ c ∈ ip, c.isDigit = true)
    (hmid : mid = [] ∨ ∃ fs, fs ≠ [] ∧ (∀ c ∈ fs, c.isDigit = true) ∧ mid = '.' :: fs)
    (hnum : num = ip ++ mid) :
    extract_size (String.mk (pre ++ (num ++ (' ' :: 'g' :: 'm' :: rest))))
      = ⟨floatOfNumChars num, "g", "weight", String.mk (num ++ [' ', 'g'])⟩ ∧
    extract_size (String.mk (pre ++ (num ++ (' ' :: 'g' :: 'm' :: rest))))
      = extract_size (String.mk (pre ++ (num ++ (' ' :: 'g' :: rest)))) := by
  subst hnum
  have key : ∀ Y : List Char,
      searchSize (pre ++ ((ip ++ mid) ++ (' ' :: 'g' :: Y)))
        = some ⟨ip ++ mid, ['g'], (ip ++ mid) ++ [' ', 'g']⟩ := by
    intro Y
    rw [searchSize_skip_nondigits pre _ hpre]
    obtain ⟨i0, ip2, hips⟩ := List.exists_cons_of_ne_nil hip
    subst hips
    rw [List.append_assoc, List.cons_append]
    show (matchSizeAt ((i0 :: ip2) ++ (mid ++ (' ' :: 'g' :: Y)))).or
        (searchSize (ip2 ++ (mid ++ (' ' :: 'g' :: Y))))
      = some ⟨(i0 :: ip2) ++ mid, ['g'], ((i0 :: ip2) ++ mid) ++ [' ', 'g']⟩
    rw [matchSizeAt_num_gm (i0 :: ip2) mid Y hip hipd hmid]
    rfl
  have hlook : conversions.lookup ['g'] = some (1, "g", "weight") := rfl
  constructor
  · show extract_size (String.mk (pre ++ ((ip ++ mid) ++ (' ' :: 'g' :: ('m' :: rest))))) = _
    unfold extract_size
    rw [data_mk, key ('m' :: rest)]
    simp only [hlook, mul_one]
  · show extract_size (String.mk (pre ++ ((ip ++ mid) ++ (' ' :: 'g' :: ('m' :: rest)))))
      = extract_size (String.mk (pre ++ ((ip ++ mid) ++ (' ' :: 'g' :: rest))))
    unfold extract_size
    rw [data_mk, data_mk, key ('m' :: rest), key rest]

/-- Concrete instance of `extract_size_gm` at the name `"x 5 gm"` against
`"x 5 g"`. -/
theorem extract_size_gm_witness :
    extract_size (String.mk (['x', ' '] ++ (['5'] ++ (' ' :: 'g' :: 'm' :: []))))
      = ⟨floatOfNumChars ['5'], "g", "weight", String.mk (['5'] ++ [' ', 'g'])⟩ ∧
    extract_size (String.mk (['x', ' '] ++ (['5'] ++ (' ' :: 'g' :: 'm' :: []))))
      = extract_size (String.mk (['x', ' '] ++ (['5'] ++ (' ' :: 'g' :: [])))) :=
  extract_size_gm ['x', ' '] ['5'] [] [] ['5'] (by decide) (by decide) (by decide)
    (Or.inl rfl) (by decide)

/-! Data model of the rule store and product records. -/

/-- One taxonomy category of `classifications.json`. -/
structure Category where
  type : String
  subtype : String
  keywords : List String
deriving DecidableEq, Repr

/-- One synonym group of `synonyms.json`. -/
structure SynGroup where
  canonical : String
  terms : List String
deriving DecidableEq, Repr

/-- The rule store of one `ProductMatcher` instance as it stands after
`__init__` has loaded and parsed the configuration: `forbidden_pairs` is the
parsed simple-pair set (already holding both orders, as
`_parse_forbidden_rules` inserts them), `forbidden_patterns` the pattern
list, `penalty_multipliers` the dict as an association list and `brand_set`
the brand set in its fixed iteration order. -/
structure Matcher where
  categories : List Category
  synonyms : List SynGroup
  forbidden_pairs : List (String × String)
  forbidden_patterns : List (String × String)
  incompatible_categories : List (List String)
  strict_categories : List String
  penalty_multipliers : List (String × ℚ)
  brand_set : List String

/-- A caller-owned product record (`id`, `name`, optional `price`). -/
structure Product where
  id : ℤ
  name : String
  price : Option ℚ
deriving DecidableEq, Repr

/-! The category classifier (`classify_product`). -/

/-- The synonym-rewriting loop at the top of `classify_product`: group by
group, term by term, every occurrence of a listed term found in the working
name is replaced by the group's canonical term. -/
def applySynonyms (groups : List SynGroup) (s : String) : String :=
  groups.foldl
    (fun acc g =>
      g.terms.foldl
        (fun acc2 t =>
          if strContains acc2 (pyLower t) then pyReplace acc2 (pyLower t) (pyLower g.canonical)
          else acc2)
        acc)
    s

/-- The candidate list `matches` of `classify_product`: one entry
`(priority, type, subtype, keyword)` per category whose keyword list has a
member occurring in the rewritten name (the loop breaks at the first
matching keyword), with `priority` the number of configured keywords. -/
def collectMatches (cats : List Category) (name_lower : String) :
    List (ℕ × String × String × String) :=
  cats.filterMap
    (fun cat =>
      (cat.keywords.find? (fun kw => strContains name_lower (pyLower kw))).map
        (fun kw => (cat.keywords.length, cat.type, cat.subtype, kw)))

/-- Python `<` on strings: code-point lexicographic. -/
def strLtB (s t : String) : Bool := listLt s.data t.data

/-- Boolean lexicographic combination of a component order and a rest
order: how Python compares tuples, component by component. -/
def lexB {α β : Type} [DecidableEq α] (ltA : α → α → Bool) (ltB : β → β → Bool)
    (x y : α × β) : Bool :=
  ltA x.1 y.1 || (x.1 = y.1 && ltB x.2 y.2)

/-- Python's `<` on the candidate 4-tuples `(priority, type, subtype,
keyword)`: lexicographic, numbers by `<`, strings by code point. -/
def tupLt : (ℕ × String × String × String) → (ℕ × String × String × String) → Bool :=
  lexB (fun a b => decide (a < b)) (lexB strLtB (lexB strLtB strLtB))

/-- `a` may stay before `b` in `matches.sort(reverse=True)`. -/
def tupGe (a b : ℕ × String × String × String) : Bool := !(tupLt a b)

/-- `ProductMatcher.classify_product`: lowercase, rewrite synonyms, collect
candidates, sort them descending (`matches.sort(reverse=True)` on the
tuples) and return the type and subtype of the head, or
`("other", "generic")` when nothing matched. -/
def classify_product (m : Matcher) (name : String) : String × String :=
  match pySort tupGe (collectMatches m.categories (applySynonyms m.synonyms (pyLower name))) with
  | [] => ("other", "generic")
  | t :: _ => (t.2.1, t.2.2.1)

/-! Order facts for the sort in `classify_product`. -/

theorem listLt_irrefl (a : List Char) : listLt a a = false := by
  induction a with
  | nil => rfl
  | cons x xs ih => simp [listLt, ih]

theorem listLt_asymm (a : List Char) : ∀ b, listLt a b = true → listLt b a = false := by
  induction a with
  | nil =>
      intro b h
      cases b with
      | nil => exact absurd h (by simp [listLt])
      | cons y ys => simp [listLt]
  | cons x xs ih =>
      intro b h
      cases b with
      | nil => exact absurd h (by simp [listLt])
      | cons y ys =>
          simp only [listLt, Bool.or_eq_true, Bool.and_eq_true, decide_eq_true_eq] at h
          rcases h with h1 | ⟨he, hr⟩
          · have h2 : ¬ (y.toNat < x.toNat) := by omega
            have h3 : ¬ (y.toNat = x.toNat) := by omega
            simp [listLt, h2, h3]
          · have h2 : ¬ (y.toNat < x.toNat) := by omega
            simp [listLt, h2, he, ih ys hr]

theorem char_eq_of_toNat (x y : Char) (h : x.toNat = y.toNat) : x = y := by
  have h2 := congrArg Char.ofNat h
  rwa [Char.ofNat_toNat, Char.ofNat_toNat] at h2

theorem listLt_eq_of_not (a : List Char) :
    ∀ b, listLt a b = false → listLt b a = false → a = b := by
  induction a with
  | nil =>
      intro b h1 _
      cases b with
      | nil => rfl
      | cons y ys => exact absurd h1 (by simp [listLt])
  | cons x xs ih =>
      intro b h1 h2
      cases b with
      | nil => exact absurd h2 (by simp [listLt])
      | cons y ys =>
          by_cases hlt : x.toNat < y.toNat
          · exact absurd h1 (by simp [listLt, hlt])
          by_cases hgt : y.toNat < x.toNat
          · exact absurd h2 (by simp [listLt, hgt])
          have he : x.toNat = y.toNat := by omega
          have hx : x = y := char_eq_of_toNat x y he
          subst hx
          have hxy : listLt xs ys = false := by
            by_contra hc
            have hc2 : listLt xs ys = true := by
              revert hc ; cases listLt xs ys <;> simp
            exact absurd h1 (by simp [listLt, hc2])
          have hyx : listLt ys xs = false := by
            by_contra hc
            have hc2 : listLt ys xs = true := by
              revert hc ; cases listLt ys xs <;> simp
            exact absurd h2 (by simp [listLt, hc2])
          rw [ih ys hxy hyx]

theorem listLt_trans (a : List Char) :
    ∀ b c, listLt a b = true → listLt b c = true → listLt a c = true := by
  induction a with
  | nil =>
      intro b c hab hbc
      cases b with
      | nil => exact absurd hab (by simp [listLt])
      | cons y ys =>
          cases c with
          | nil => exact absurd hbc (by simp [listLt])
          | cons z zs => simp [listLt]
  | cons x xs ih =>
      intro b c hab hbc
      cases b with
      | nil => exact absurd hab (by simp [listLt])
      | cons y ys =>
          cases c with
          | nil => exact absurd hbc (by simp [listLt])
          | cons z zs =>
              simp only [listLt, Bool.or_eq_true, Bool.and_eq_true,
                decide_eq_true_eq] at hab hbc ⊢
              rcases hab with h1 | ⟨he1, hr1⟩ <;> rcases hbc with h2 | ⟨he2, hr2⟩
              · exact Or.inl (by omega)
              · exact Or.inl (by omega)
              · exact Or.inl (by omega)
              · exact Or.inr ⟨by omega, ih ys zs hr1 hr2⟩

theorem strLtB_irrefl (s : String) : strLtB s s = false := listLt_irrefl s.data

theorem strLtB_asymm (s t : String) (h : strLtB s t = true) : strLtB t s = false :=
  listLt_asymm s.data t.data h

theorem strLtB_eq_of_not (s t : String) (h1 : strLtB s t = false)
    (h2 : strLtB t s = false) : s = t := by
  obtain ⟨sd⟩ := s
  obtain ⟨td⟩ := t
  have h3 : sd = td := listLt_eq_of_not sd td h1 h2
  rw [h3]

theorem strLtB_trans (s t u : String) (h1 : strLtB s t = true)
    (h2 : strLtB t u = true) : strLtB s u = true :=
  listLt_trans s.data t.data u.data h1 h2

theorem lexB_irrefl {α β : Type} [DecidableEq α] (ltA : α → α → Bool) (ltB : β → β → Bool)
    (hA : ∀ a, ltA a a = false) (hB : ∀ b, ltB b b = false) (x : α × β) :
    lexB ltA ltB x x = false := by
  obtain ⟨a, b⟩ := x
  simp [lexB, hA, hB]

theorem lexB_asymm {α β : Type} [DecidableEq α] (ltA : α → α → Bool) (ltB : β → β → Bool)
    (hAir : ∀ a, ltA a a = false)
    (hAas : ∀ a b, ltA a b = true → ltA b a = false)
    (hBas : ∀ a b, ltB a b = true → ltB b a = false)
    (x y : α × β) (h : lexB ltA ltB x y = true) : lexB ltA ltB y x = false := by
  obtain ⟨a1, b1⟩ := x
  obtain ⟨a2, b2⟩ := y
  simp only [lexB, Bool.or_eq_true, Bool.and_eq_true, decide_eq_true_eq] at h
  rcases h with h1 | ⟨he, h2⟩
  · have g1 : ltA a2 a1 = false := hAas _ _ h1
    have g2 : a2 ≠ a1 := by
      rintro rfl
      exact absurd h1 (by simp [hAir])
    simp [lexB, g1, g2]
  · subst he
    simp [lexB, hAir, hBas _ _ h2]

theorem lexB_eq_of_not {α β : Type} [DecidableEq α] (ltA : α → α → Bool) (ltB : β → β → Bool)
    (hAeq : ∀ a b, ltA a b = false → ltA b a = false → a = b)
    (hBeq : ∀ a b, ltB a b = false → ltB b a = false → a = b)
    (x y : α × β) (h1 : lexB ltA ltB x y = false) (h2 : lexB ltA ltB y x = false) :
    x = y := by
  obtain ⟨a1, b1⟩ := x
  obtain ⟨a2, b2⟩ := y
  by_cases hA1 : ltA a1 a2 = true
  · exact absurd h1 (by simp [lexB, hA1])
  by_cases hA2 : ltA a2 a1 = true
  · exact absurd h2 (by simp [lexB, hA2])
  have ha : a1 = a2 := hAeq _ _ (Bool.eq_false_iff.mpr hA1) (Bool.eq_false_iff.mpr hA2)
  subst ha
  have hb1 : ltB b1 b2 = false := by
    by_contra hc
    have hc2 : ltB b1 b2 = true := by
      revert hc ; cases ltB b1 b2 <;> simp
    exact absurd h1 (by simp [lexB, hc2])
  have hb2 : ltB b2 b1 = false := by
    by_contra hc
    have hc2 : ltB b2 b1 = true := by
      revert hc ; cases ltB b2 b1 <;> simp
    exact absurd h2 (by simp [lexB, hc2])
  rw [hBeq _ _ hb1 hb2]

theorem lexB_trans {α β : Type} [DecidableEq α] (ltA : α → α → Bool) (ltB : β → β → Bool)
    (hAtr : ∀ a b c, ltA a b = true → ltA b c = true → ltA a c = true)
    (hBtr : ∀ a b c, ltB a b = true → ltB b c = true → ltB a c = true)
    (x y z : α × β) (hxy : lexB ltA ltB x y = true) (hyz : lexB ltA ltB y z = true) :
    lexB ltA ltB x z = true := by
  obtain ⟨a1, b1⟩ := x
  obtain ⟨a2, b2⟩ := y
  obtain ⟨a3, b3⟩ := z
  simp only [lexB, Bool.or_eq_true, Bool.and_eq_true, decide_eq_true_eq] at hxy hyz ⊢
  rcases hxy with h1 | ⟨he1, h2⟩ <;> rcases hyz with g1 | ⟨ge1, g2⟩
  · exact Or.inl (hAtr _ _ _ h1 g1)
  · subst ge1 ; exact Or.inl h1
  · subst he1 ; exact Or.inl g1
  · subst he1 ; subst ge1 ; exact Or.inr ⟨rfl, hBtr _ _ _ h2 g2⟩

theorem natLtB_irrefl (a : ℕ) : decide (a < a) = false := by simp

theorem natLtB_asymm (a b : ℕ) (h : decide (a < b) = true) : decide (b < a) = false := by
  simp at h ⊢ ; omega

theorem natLtB_eq_of_not (a b : ℕ) (h1 : decide (a < b) = false)
    (h2 : decide (b < a) = false) : a = b := by
  simp at h1 h2 ; omega

theorem natLtB_trans (a b c : ℕ) (h1 : decide (a < b) = true)
    (h2 : decide (b < c) = true) : decide (a < c) = true := by
  simp at h1 h2 ⊢ ; omega

theorem tupLt_irrefl (x : ℕ × String × String × String) : tupLt x x = false :=
  lexB_irrefl _ _ natLtB_irrefl
    (lexB_irrefl _ _ strLtB_irrefl (lexB_irrefl _ _ strLtB_irrefl strLtB_irrefl)) x

theorem tupLt_asymm (x y : ℕ × String × String × String) (h : tupLt x y = true) :
    tupLt y x = false :=
  lexB_asymm _ _ natLtB_irrefl natLtB_asymm
    (lexB_asymm _ _ strLtB_irrefl strLtB_asymm
      (lexB_asymm _ _ strLtB_irrefl strLtB_asymm strLtB_asymm))
    x y h

theorem tupLt_eq_of_not (x y : ℕ × String × String × String)
    (h1 : tupLt x y = false) (h2 : tupLt y x = false) : x = y :=
  lexB_eq_of_not _ _ natLtB_eq_of_not
    (lexB_eq_of_not _ _ strLtB_eq_of_not
      (lexB_eq_of_not _ _ strLtB_eq_of_not strLtB_eq_of_not))
    x y h1 h2

theorem tupLt_trans (x y z : ℕ × String × String × String)
    (h1 : tupLt x y = true) (h2 : tupLt y z = true) : tupLt x z = true :=
  lexB_trans _ _ natLtB_trans
    (lexB_trans _ _ strLtB_trans (lexB_trans _ _ strLtB_trans strLtB_trans))
    x y z h1 h2

theorem tupGe_refl (x : ℕ × String × String × String) : tupGe x x = true := by
  simp [tupGe, tupLt_irrefl]

theorem tupGe_total (x y : ℕ × String × String × String) :
    tupGe x y = true ∨ tupGe y x = true := by
  by_cases h : tupLt x y = true
  · right
    simp [tupGe, tupLt_asymm x y h]
  · left
    simp [tupGe, Bool.eq_false_iff.mpr h]

theorem tupGe_trans (x y z : ℕ × String × String × String)
    (h1 : tupGe x y = true) (h2 : tupGe y z = true) : tupGe x z = true := by
  simp only [tupGe, Bool.not_eq_true'] at h1 h2 ⊢
  by_contra hc
  have hc2 : tupLt x z = true := by
    revert hc ; cases tupLt x z <;> simp
  by_cases hba : tupLt y x = true
  · exact absurd (tupLt_trans y x z hba hc2) (by simp [h2])
  · have hxy : x = y := tupLt_eq_of_not x y h1 (Bool.eq_false_iff.mpr hba)
    subst hxy
    exact absurd hc2 (by simp [h2])

theorem pyInsert_ne_nil {α : Type} (r : α → α → Bool) (x : α) (l : List α) :
    pyInsert r x l ≠ [] := by
  cases l with
  | nil => simp [pyInsert]
  | cons y ys =>
      unfold pyInsert
      by_cases h : r x y = true <;> simp [h]

theorem pySort_nil_iff {α : Type} (r : α → α → Bool) (l : List α) :
    pySort r l = [] ↔ l = [] := by
  cases l with
  | nil => simp [pySort]
  | cons x xs =>
      simp only [pySort]
      constructor
      · intro h ; exact absurd h (pyInsert_ne_nil r x (pySort r xs))
      · intro h ; exact absurd h (by simp)

theorem pySort_head_max {α : Type} (r : α → α → Bool)
    (hrefl : ∀ a, r a a = true)
    (htot : ∀ a b, r a b = true ∨ r b a = true)
    (htrans : ∀ a b c, r a b = true → r b c = true → r a c = true) :
    ∀ (l : List α) (h : α) (t : List α), pySort r l = h :: t →
      h ∈ l ∧ ∀ x ∈ l, r h x = true := by
  intro l
  induction l with
  | nil =>
      intro h t hs
      exact absurd hs (by simp [pySort])
  | cons a as ih =>
      intro h t hs
      rw [show pySort r (a :: as) = pyInsert r a (pySort r as) from rfl] at hs
      cases hsa : pySort r as with
      | nil =>
          have hasnil : as = [] := (pySort_nil_iff r as).mp hsa
          rw [hsa] at hs
          unfold pyInsert at hs
          injection hs with hs1 hs2
          subst hs1
          subst hasnil
          refine ⟨List.mem_cons_self a [], ?_⟩
          intro x hx
          rcases List.mem_cons.mp hx with rfl | hx2
          · exact hrefl x
          · exact absurd hx2 (List.not_mem_nil x)
      | cons b bs =>
          obtain ⟨hbmem, hbmax⟩ := ih b bs hsa
          rw [hsa] at hs
          unfold pyInsert at hs
          by_cases hab : r a b = true
          · rw [if_pos hab] at hs
            injection hs with hs1 hs2
            subst hs1
            refine ⟨List.mem_cons_self a as, ?_⟩
            intro x hx
            rcases List.mem_cons.mp hx with rfl | hx2
            · exact hrefl x
            · exact htrans a b x hab (hbmax x hx2)
          · rw [if_neg hab] at hs
            injection hs with hs1 hs2
            subst hs1
            refine ⟨List.mem_cons_of_mem a hbmem, ?_⟩
            intro x hx
            rcases List.mem_cons.mp hx with rfl | hx2
            · rcases htot b x with hh | hh
              · exact hh
              · exact absurd hh hab
            · exact hbmax x hx2

/-- C3 amended: `classify_product` returns `("other", "generic")` when no
keyword matches; otherwise it returns the type and subtype of a candidate
tuple `(priority, type, subtype, keyword)` that is maximal among all
candidates in Python's lexicographic tuple order — so the highest priority
wins, but equal-priority ties are broken towards the lexicographically
greatest `(type, subtype, keyword)`, not towards taxonomy declaration order
(declaration order only decides between fully identical tuples). -/
theorem classify_product_characterisation (m : Matcher) (name : String) :
    (collectMatches m.categories (applySynonyms m.synonyms (pyLower name)) = []
        ∧ classify_product m name = ("other", "generic"))
    ∨ (∃ t, t ∈ collectMatches m.categories (applySynonyms m.synonyms (pyLower name))
        ∧ classify_product m name = (t.2.1, t.2.2.1)
        ∧ ∀ u ∈ collectMatches m.categories (applySynonyms m.synonyms (pyLower name)),
            tupGe t u = true) := by
  cases hs : pySort tupGe (collectMatches m.categories (applySynonyms m.synonyms (pyLower name))) with
  | nil =>
      left
      refine ⟨(pySort_nil_iff tupGe _).mp hs, ?_⟩
      unfold classify_product
      rw [hs]
  | cons h t =>
      right
      obtain ⟨hmem, hmax⟩ := pySort_head_max tupGe tupGe_refl tupGe_total tupGe_trans _ h t hs
      refine ⟨h, hmem, ?_, hmax⟩
      unfold classify_product
      rw [hs]

/-- A rule store with two categories of equal priority (one keyword each):
`apple:a` is declared first, `zebra:z` second. -/
def tieStore : Matcher :=
  ⟨[⟨"apple", "a", ["x"]⟩, ⟨"zebra", "z", ["y"]⟩], [], [], [], [], [], [], []⟩

/-- C3 counterexample: on the name `"x y"` both categories match with the
same priority 1, `apple:a` earliest in declaration order — yet
`classify_product` returns `("zebra", "z")`, because `matches.sort(reverse=True)`
orders equal-priority tuples by the remaining components, not by declaration
order. -/
theorem classify_product_tiebreak_counterexample :
    collectMatches tieStore.categories (applySynonyms tieStore.synonyms (pyLower "x y"))
      = [(1, "apple", "a", "x"), (1, "zebra", "z", "y")]
    ∧ classify_product tieStore "x y" = ("zebra", "z")
    ∧ classify_product tieStore "x y" ≠ ("apple", "a") := by
  decide

/-! The forbidden-match rule engine. -/

/-- `ProductMatcher._matches_pattern`: a `type:subtype` pattern matches the
classification, an alternation pattern matches if any option occurs in the
name, a plain pattern is a substring test (a colon pattern that does not
split into exactly two parts matches nothing). -/
def matchesPattern (pat name ptype psubtype : String) : Bool :=
  if strContains pat ":" then
    match pySplitChar pat ':' with
    | [a, b] => a = ptype && b = psubtype
    | _ => false
  else if strContains pat "|" then
    (pySplitChar pat '|').any (fun opt => strContains name opt)
  else strContains name pat

/-- `ProductMatcher._check_forbidden_patterns`: first pattern pair that
fires wins; category-qualified, alternation and plain keyword forms. -/
def check_forbidden_patterns (pats : List (String × String))
    (name1 name2 type1 sub1 type2 sub2 : String) : Bool :=
  let n1 := pyLower name1
  let n2 := pyLower name2
  pats.any (fun p =>
    if strContains p.1 ":" then
      match pySplitChar p.1 ':' with
      | [a, b] => a = type1 && b = sub1 && matchesPattern p.2 n2 type2 sub2
      | _ => false
    else if strContains p.1 "|" then
      let opts1 := pySplitChar p.1 '|'
      let opts2 := if strContains p.2 "|" then pySplitChar p.2 '|' else [p.2]
      opts1.any (fun o => strContains n1 o) && opts2.any (fun o => strContains n2 o)
    else
      (strContains n1 p.1 && strContains n2 p.2)
        || (strContains n1 p.2 && strContains n2 p.1))

/-- Spices that must never match baking powder. -/
def bakingSpices : List String := ["cumin", "coriander", "turmeric", "chili", "masala"]

/-- The fixed list of named spices that must never match each other. -/
def spicesList : List String := ["amchur", "anardana", "cumin", "coriander", "turmeric", "chili"]

/-- The hard-coded distinct-spice rule: first spice of the list found in
each name; fires when both names name a spice and the spices differ. -/
def differentSpiceCheck (n1 n2 : String) : Option (String × String) :=
  match spicesList.find? (fun s => strContains n1 s),
        spicesList.find? (fun s => strContains n2 s) with
  | some s1, some s2 => if s1 ≠ s2 then some (s1, s2) else none
  | _, _ => none

/-- The hard-coded coconut-vs-curry rule, the last layer before
`(False, "")`. -/
def coconutCurryCheck (n1 n2 : String) : Bool × String :=
  if (strContains n1 "coconut" && strContains n2 "curry")
      || (strContains n1 "curry" && strContains n2 "coconut") then
    (true, "Coconut products cannot match with curry products")
  else (false, "")

/-- `ProductMatcher.is_forbidden_match`: the rule layers in source order,
short-circuiting with the first reason — exact `type:subtype` pair, bare
type pair, pattern rules, configured incompatible categories, then the
hard-coded baking/spice/coconut rules on the lowercased raw names. -/
def is_forbidden_match (m : Matcher) (primary candidate : Product)
    (type1 sub1 type2 sub2 : String) : Bool × String :=
  if m.forbidden_pairs.contains (type1 ++ ":" ++ sub1, type2 ++ ":" ++ sub2) then
    (true, "Forbidden type combination: " ++ type1 ++ ":" ++ sub1 ++ " vs "
      ++ type2 ++ ":" ++ sub2)
  else if m.forbidden_pairs.contains (type1, type2) then
    (true, "Forbidden type combination: " ++ type1 ++ " vs " ++ type2)
  else if check_forbidden_patterns m.forbidden_patterns primary.name candidate.name
      type1 sub1 type2 sub2 then
    (true, "Matches forbidden pattern")
  else
    match m.incompatible_categories.findSome? (fun pr =>
        match pr with
        | [c1, c2] =>
            if (type1 ++ ":" ++ sub1 = c1 && type2 ++ ":" ++ sub2 = c2)
                || (type1 ++ ":" ++ sub1 = c2 && type2 ++ ":" ++ sub2 = c1)
                || (type1 = c1 && type2 = c2) || (type1 = c2 && type2 = c1) then
              some (c1, c2)
            else none
        | _ => none) with
    | some p => (true, "Incompatible categories: " ++ p.1 ++ " vs " ++ p.2)
    | none =>
        let n1 := pyLower primary.name
        let n2 := pyLower candidate.name
        if (strContains n1 "baking powder" && bakingSpices.any (fun s => strContains n2 s))
            || (strContains n2 "baking powder" && bakingSpices.any (fun s => strContains n1 s)) then
          (true, "Baking powder cannot match with spices")
        else
          match differentSpiceCheck n1 n2 with
          | some p => (true, "Different spices: " ++ p.1 ++ " vs " ++ p.2)
          | none => coconutCurryCheck n1 n2

/-! The confidence calculator. -/

/-- The closing clamp `min(max(base_score, 0.0), 1.0)`. -/
def clamp01 (x : ℚ) : ℚ := min (max x 0) 1

/-- Rendering of a number into a warning text (stands in for Python's float
formatting; no score ever depends on the rendered text). -/
def ratStr (q : ℚ) : String := toString q

/-- Category penalty step of `calculate_confidence`: a type mismatch uses
the configured `different_{p}_vs_{c}` multiplier or the 0.5 default; a
subtype mismatch within a type multiplies by 0.3 (strict category) or 0.7;
an exact match adds a 0.15 bonus capped at 1. -/
def typePenalty (m : Matcher) (ptype psub ctype csub : String) (base : ℚ) :
    ℚ × List String :=
  if ptype ≠ ctype then
    (match m.penalty_multipliers.lookup ("different_" ++ ptype ++ "_vs_" ++ ctype) with
      | some mult => base * mult
      | none => base * (1/2),
     ["Type mismatch: " ++ ptype ++ " vs " ++ ctype])
  else if psub ≠ csub then
    if m.strict_categories.contains (ptype ++ ":" ++ psub)
        || m.strict_categories.contains (ctype ++ ":" ++ csub) then
      (base * (3/10), ["Strict subtype mismatch: " ++ psub ++ " vs " ++ csub])
    else (base * (7/10), ["Subtype mismatch: " ++ psub ++ " vs " ++ csub])
  else (min (base + 3/20) 1, [])

/-- Size penalty step of `calculate_confidence`. -/
def sizePenalty (base size_sim : ℚ) (ps cs : SizeInfo) : ℚ × List String :=
  if size_sim < 1/2 then
    (base * (1/2), ["Significant size mismatch: " ++ ratStr ps.value ++ ps.unit
      ++ " vs " ++ ratStr cs.value ++ cs.unit])
  else if size_sim < 3/4 then
    (base * (4/5), ["Size difference: " ++ ratStr ps.value ++ ps.unit
      ++ " vs " ++ ratStr cs.value ++ cs.unit])
  else if size_sim > 19/20 then (min (base + 1/20) 1, [])
  else (base, [])

/-- Python truthiness of `product.get('price')`: absent and `0` are falsy. -/
def priceTruthy : Option ℚ → Bool
  | none => false
  | some p => p ≠ 0

/-- Price sanity step of `calculate_confidence`. -/
def pricePenalty (base : ℚ) (p c : Option ℚ) : ℚ × List String :=
  if priceTruthy p && priceTruthy c then
    let pv := p.getD 0
    let cv := c.getD 0
    let ratio := max pv cv / min pv cv
    if ratio > 10 then (base * (3/5), ["Large price difference: " ++ ratStr ratio ++ "x"])
    else if ratio > 5 then (base * (4/5), ["Price difference: " ++ ratStr ratio ++ "x"])
    else (base, [])
  else (base, [])

/-- Unit words excluded from the borderline common-word check. -/
def unitWords : List String := ["g", "kg", "ml", "l", "oz", "lb"]

/-- Borderline scrutiny step of `calculate_confidence`: entered only when
the running score lies strictly between 0.6 and 0.75 (tested once, on
entry); `warnings` is the list accumulated so far. -/
def borderline (base : ℚ) (warnings : List String) (name1 name2 : String) :
    ℚ × List String :=
  if 3/5 < base ∧ base < 3/4 then
    let b1 := if warnings.length > 2 then base * (4/5) else base
    let w1 := pySplit (pyLower name1)
    let w2 := pySplit (pyLower name2)
    let common := w1.dedup.filter (fun w => w2.contains w && !(unitWords.contains w))
    if common.length < 2 then (b1 * (7/10), ["Insufficient common meaningful words"])
    else (b1, [])
  else (base, [])

/-- `ProductMatcher.calculate_confidence`, with the hybrid name-similarity
scorer passed in as `hybrid` (the method calls
`self.calculate_hybrid_similarity`, whose embedding-model part is an
external service; every other step is translated below it). -/
def calculate_confidence (m : Matcher) (hybrid : String → String → ℚ)
    (primary candidate : Product) : ℚ × List String :=
  let pc := classify_product m primary.name
  let cc := classify_product m candidate.name
  let fb := is_forbidden_match m primary candidate pc.1 pc.2 cc.1 cc.2
  if fb.1 then (0, [fb.2])
  else
    let base0 := hybrid primary.name candidate.name
    if base0 < 3/10 then (0, ["Very low name similarity: " ++ ratStr base0])
    else
      let t := typePenalty m pc.1 pc.2 cc.1 cc.2 base0
      let ps := extract_size primary.name
      let cs := extract_size candidate.name
      let s := sizePenalty t.1 (calculate_size_similarity ps cs) ps cs
      let pr := pricePenalty s.1 primary.price candidate.price
      let bl := borderline pr.1 (t.2 ++ s.2 ++ pr.2) primary.name candidate.name
      (clamp01 bl.1, t.2 ++ s.2 ++ pr.2 ++ bl.2)

/-- C1: whenever the forbidden-match rule engine flags a pair with some
reason, `calculate_confidence` returns score 0 with exactly that reason as
the only warning — for every similarity scorer, i.e. without the
similarity, size or price steps influencing the result. -/
theorem calculate_confidence_forbidden (m : Matcher) (primary candidate : Product)
    (reason : String)
    (hp : primary.name ≠ "") (hc : candidate.name ≠ "")
    (hf : is_forbidden_match m primary candidate
        (classify_product m primary.name).1 (classify_product m primary.name).2
        (classify_product m candidate.name).1 (classify_product m candidate.name).2
      = (true, reason)) :
    ∀ hybrid : String → String → ℚ,
      calculate_confidence m hybrid primary candidate = (0, [reason])
        ∧ (calculate_confidence m hybrid primary candidate).2 ≠ [] := by
  intro hybrid
  have h1 : calculate_confidence m hybrid primary candidate = (0, [reason]) := by
    simp only [calculate_confidence]
    rw [hf]
    simp
  refine ⟨h1, ?_⟩
  rw [h1]
  simp

/-- The degenerate rule store: every configuration table empty (only the
hard-coded rules of `is_forbidden_match` can fire). -/
def emptyStore : Matcher := ⟨[], [], [], [], [], [], [], []⟩

/-- Concrete instance of `calculate_confidence_forbidden`: the hard-coded
distinct-spice rule fires on `"cumin powder"` vs `"turmeric powder"`. -/
theorem calculate_confidence_forbidden_witness :
    calculate_confidence emptyStore (fun _ _ => 0)
        ⟨1, "cumin powder", none⟩ ⟨2, "turmeric powder", none⟩
      = (0, ["Different spices: cumin vs turmeric"])
    ∧ (calculate_confidence emptyStore (fun _ _ => 0)
        ⟨1, "cumin powder", none⟩ ⟨2, "turmeric powder", none⟩).2 ≠ [] :=
  calculate_confidence_forbidden emptyStore
    ⟨1, "cumin powder", none⟩ ⟨2, "turmeric powder", none⟩
    "Different spices: cumin vs turmeric"
    (by decide) (by decide) (by decide) (fun _ _ => 0)

/-- C2: the score of `calculate_confidence` lies in `[0, 1]` on every
return path (forbidden early return, low-similarity early return, and the
final clamped return), for any scorer and any products with non-empty names
and positive prices when present. -/
theorem calculate_confidence_bounds (m : Matcher) (hybrid : String → String → ℚ)
    (primary candidate : Product)
    (hp : primary.name ≠ "") (hc : candidate.name ≠ "")
    (hpp : ∀ q, primary.price = some q → 0 < q)
    (hcp : ∀ q, candidate.price = some q → 0 < q) :
    0 ≤ (calculate_confidence m hybrid primary candidate).1
      ∧ (calculate_confidence m hybrid primary candidate).1 ≤ 1 := by
  have hclamp : ∀ x : ℚ, 0 ≤ clamp01 x ∧ clamp01 x ≤ 1 := by
    intro x
    unfold clamp01
    exact ⟨le_min (le_max_right x 0) zero_le_one, min_le_right _ _⟩
  simp only [calculate_confidence]
  split_ifs with h1 h2
  · norm_num
  · norm_num
  · exact hclamp _

/-- Concrete instance of `calculate_confidence_bounds`. -/
theorem calculate_confidence_bounds_witness :
    0 ≤ (calculate_confidence emptyStore (fun _ _ => 0)
        ⟨1, "a", none⟩ ⟨2, "b", none⟩).1
      ∧ (calculate_confidence emptyStore (fun _ _ => 0)
        ⟨1, "a", none⟩ ⟨2, "b", none⟩).1 ≤ 1 :=
  calculate_confidence_bounds emptyStore (fun _ _ => 0) ⟨1, "a", none⟩ ⟨2, "b", none⟩
    (by decide) (by decide) (fun q h => nomatch h) (fun q h => nomatch h)

/-- Rule store for the penalty-key asymmetry: two categories `t1:s1` and
`t2:s2`, and a penalty multiplier configured for `different_t1_vs_t2` only. -/
def asymStore : Matcher :=
  ⟨[⟨"t1", "s1", ["foo"]⟩, ⟨"t2", "s2", ["bar"]⟩], [], [], [], [], [],
   [("different_t1_vs_t2", 9/10)], []⟩

/-- A symmetric similarity scorer, constant 0.9. -/
def hybridNine : String → String → ℚ := fun _ _ => 9/10

/-- C9: `calculate_confidence` is not symmetric: with the multiplier keyed
`different_t1_vs_t2` configured but not `different_t2_vs_t1`, and a scorer
that is itself symmetric, swapping the two products changes the score —
the penalty key is built only in `(primary type, candidate type)` order and
the reversed order falls back to the 0.5 default. -/
theorem calculate_confidence_asymmetric :
    asymStore.penalty_multipliers.lookup "different_t1_vs_t2" = some (9/10)
    ∧ asymStore.penalty_multipliers.lookup "different_t2_vs_t1" = none
    ∧ (classify_product asymStore "foo shared words").1
        ≠ (classify_product asymStore "bar shared words").1
    ∧ (calculate_confidence asymStore hybridNine
          ⟨1, "foo shared words", none⟩ ⟨2, "bar shared words", none⟩).1
        ≠ (calculate_confidence asymStore hybridNine
          ⟨2, "bar shared words", none⟩ ⟨1, "foo shared words", none⟩).1 := by
  with_unfolding_all decide

/-! The match finder. -/

/-- A found match (`ProductMatch` dataclass). -/
structure ProductMatch where
  primary_id : ℤ
  matched_id : ℤ
  confidence : ℚ
  match_type : String
  size_similarity : ℚ
  warnings : List String
deriving DecidableEq, Repr

/-- The `match_type` tier assignment of `find_matches`. -/
def matchTypeOf (confidence : ℚ) : String :=
  if confidence ≥ 9/10 then "exact"
  else if confidence ≥ 3/4 then "similar"
  else "substitute"

/-- The record `find_matches` appends for one accepted candidate (the size
similarity is recomputed from the two names). -/
def mkProductMatch (primary c : Product) (cw : ℚ × List String) : ProductMatch :=
  ⟨primary.id, c.id, cw.1, matchTypeOf cw.1,
   calculate_size_similarity (extract_size primary.name) (extract_size c.name), cw.2⟩

/-- The candidate loop of `find_matches` before the sort: skip the candidate
whose id equals the primary's, score, keep scores at or above the
threshold, in candidate input order. -/
def find_matchesPre (confFn : Product → Product → ℚ × List String)
    (primary : Product) (candidates : List Product) (min_confidence : ℚ) :
    List ProductMatch :=
  candidates.filterMap (fun c =>
    if c.id = primary.id then none
    else
      let cw := confFn primary c
      if min_confidence ≤ cw.1 then some (mkProductMatch primary c cw) else none)

/-- `matches.sort(key=lambda m: m.confidence, reverse=True)`: `a` may stay
before `b` iff `b`'s confidence does not exceed `a`'s. -/
def confGe (a b : ProductMatch) : Bool := b.confidence ≤ a.confidence

/-- `ProductMatcher.find_matches`: score, filter, stable-sort descending by
confidence, truncate to `max_matches`. -/
def find_matches (m : Matcher) (hybrid : String → String → ℚ)
    (primary : Product) (candidates : List Product)
    (min_confidence : ℚ) (max_matches : ℕ) : List ProductMatch :=
  (pySort confGe
    (find_matchesPre (calculate_confidence m hybrid) primary candidates min_confidence)).take
    max_matches

theorem mem_pyInsert {α : Type} (r : α → α → Bool) (x z : α) (l : List α) :
    z ∈ pyInsert r x l ↔ z = x ∨ z ∈ l := by
  induction l with
  | nil => simp [pyInsert]
  | cons y ys ih =>
      unfold pyInsert
      by_cases h : r x y = true
      · rw [if_pos h]
        simp [List.mem_cons]
      · rw [if_neg h]
        simp [List.mem_cons, ih]
        tauto

theorem mem_pySort {α : Type} (r : α → α → Bool) (z : α) (l : List α) :
    z ∈ pySort r l ↔ z ∈ l := by
  induction l with
  | nil => simp [pySort]
  | cons x xs ih =>
      simp only [pySort]
      rw [mem_pyInsert, ih]
      simp [List.mem_cons]

theorem pyInsert_pairwise {α : Type} (r : α → α → Bool)
    (htot : ∀ a b, r a b = true ∨ r b a = true)
    (htrans : ∀ a b c, r a b = true → r b c = true → r a c = true)
    (x : α) (l : List α) (hl : l.Pairwise (fun a b => r a b = true)) :
    (pyInsert r x l).Pairwise (fun a b => r a b = true) := by
  induction l with
  | nil => simp [pyInsert]
  | cons y ys ih =>
      rcases List.pairwise_cons.mp hl with ⟨hy, hys⟩
      unfold pyInsert
      by_cases hxy : r x y = true
      · rw [if_pos hxy]
        refine List.pairwise_cons.mpr ⟨?_, hl⟩
        intro z hz
        rcases List.mem_cons.mp hz with rfl | hz2
        · exact hxy
        · exact htrans x y z hxy (hy z hz2)
      · rw [if_neg hxy]
        refine List.pairwise_cons.mpr ⟨?_, ih hys⟩
        intro z hz
        rcases (mem_pyInsert r x z ys).mp hz with rfl | hz2
        · rcases htot z y with hh | hh
          · exact absurd hh hxy
          · exact hh
        · exact hy z hz2

theorem pySort_pairwise {α : Type} (r : α → α → Bool)
    (htot : ∀ a b, r a b = true ∨ r b a = true)
    (htrans : ∀ a b c, r a b = true → r b c = true → r a c = true)
    (l : List α) : (pySort r l).Pairwise (fun a b => r a b = true) := by
  induction l with
  | nil => simp [pySort]
  | cons x xs ih =>
      simp only [pySort]
      exact pyInsert_pairwise r htot htrans x (pySort r xs) ih

theorem filter_conf_pyInsert (q : ℚ) (x : ProductMatch) (l : List ProductMatch) :
    (pyInsert confGe x l).filter (fun mm => decide (mm.confidence = q))
      = if x.confidence = q
        then x :: l.filter (fun mm => decide (mm.confidence = q))
        else l.filter (fun mm => decide (mm.confidence = q)) := by
  induction l with
  | nil =>
      by_cases h : x.confidence = q <;> simp [pyInsert, List.filter_cons, h]
  | cons y ys ih =>
      unfold pyInsert
      by_cases hxy : confGe x y = true
      · rw [if_pos hxy]
        by_cases hx : x.confidence = q <;> simp [List.filter_cons, hx]
      · rw [if_neg hxy]
        have hyq : x.confidence = q → ¬ (y.confidence = q) := by
          intro hq hyq2
          apply hxy
          unfold confGe
          rw [hyq2, hq]
          simp
        by_cases hx : x.confidence = q
        · have hy : ¬ (y.confidence = q) := hyq hx
          simp [List.filter_cons, hx, hy, ih]
        · by_cases hy : y.confidence = q <;> simp [List.filter_cons, hx, hy, ih]

theorem filter_conf_pySort (q : ℚ) (l : List ProductMatch) :
    (pySort confGe l).filter (fun mm => decide (mm.confidence = q))
      = l.filter (fun mm => decide (mm.confidence = q)) := by
  induction l with
  | nil => simp [pySort]
  | cons x xs ih =>
      simp only [pySort]
      rw [filter_conf_pyInsert q x (pySort confGe xs)]
      by_cases hx : x.confidence = q <;> simp [List.filter_cons, hx, ih]

theorem find_matchesPre_mem (confFn : Product → Product → ℚ × List String)
    (primary : Product) (candidates : List Product) (min_confidence : ℚ)
    (mm : ProductMatch)
    (h : mm ∈ find_matchesPre confFn primary candidates min_confidence) :
    mm.matched_id ≠ primary.id ∧ min_confidence ≤ mm.confidence := by
  unfold find_matchesPre at h
  rcases List.mem_filterMap.mp h with ⟨c, _, hc⟩
  by_cases hid : c.id = primary.id
  · rw [if_pos hid] at hc
    exact absurd hc (by simp)
  · rw [if_neg hid] at hc
    by_cases hcf : min_confidence ≤ (confFn primary c).1
    · rw [if_pos hcf] at hc
      injection hc with hc2
      subst hc2
      exact ⟨hid, hcf⟩
    · rw [if_neg hcf] at hc
      exact absurd hc (by simp)

/-- C5: `find_matches` returns at most `max_matches` entries, never the
primary's own id, only confidences at or above the threshold, sorted by
non-increasing confidence; ties keep candidate input order — each
equal-confidence class of the output is an initial segment of the same
class of the pre-sort list built in candidate input order (the stable-sort
property after truncation). -/
theorem find_matches_props (m : Matcher) (hybrid : String → String → ℚ)
    (primary : Product) (candidates : List Product)
    (min_confidence : ℚ) (max_matches : ℕ) :
    (find_matches m hybrid primary candidates min_confidence max_matches).length ≤ max_matches
    ∧ (∀ mm ∈ find_matches m hybrid primary candidates min_confidence max_matches,
        mm.matched_id ≠ primary.id ∧ min_confidence ≤ mm.confidence)
    ∧ List.Pairwise (fun a b => b.confidence ≤ a.confidence)
        (find_matches m hybrid primary candidates min_confidence max_matches)
    ∧ ∀ q : ℚ, ∃ ext,
        (find_matches m hybrid primary candidates min_confidence max_matches).filter
            (fun mm => decide (mm.confidence = q)) ++ ext
          = (find_matchesPre (calculate_confidence m hybrid) primary candidates
              min_confidence).filter (fun mm => decide (mm.confidence = q)) := by
  have htot : ∀ a b : ProductMatch, confGe a b = true ∨ confGe b a = true := by
    intro a b
    unfold confGe
    simp only [decide_eq_true_eq]
    exact le_total b.confidence a.confidence
  have htrans : ∀ a b c : ProductMatch,
      confGe a b = true → confGe b c = true → confGe a c = true := by
    intro a b c h1 h2
    unfold confGe at h1 h2 ⊢
    simp only [decide_eq_true_eq] at h1 h2 ⊢
    exact le_trans h2 h1
  refine ⟨?_, ?_, ?_, ?_⟩
  · exact List.length_take_le _ _
  · intro mm hmm
    have h1 : mm ∈ pySort confGe
        (find_matchesPre (calculate_confidence m hybrid) primary candidates min_confidence) :=
      List.mem_of_mem_take hmm
    have h2 := (mem_pySort confGe mm _).mp h1
    exact find_matchesPre_mem _ primary candidates min_confidence mm h2
  · have hp := pySort_pairwise confGe htot htrans
      (find_matchesPre (calculate_confidence m hybrid) primary candidates min_confidence)
    have hp2 := hp.sublist (List.take_sublist max_matches _)
    exact hp2.imp (fun h => by simpa [confGe] using h)
  · intro q
    refine ⟨(List.drop max_matches (pySort confGe
        (find_matchesPre (calculate_confidence m hybrid) primary candidates
          min_confidence))).filter (fun mm => decide (mm.confidence = q)), ?_⟩
    rw [show find_matches m hybrid primary candidates min_confidence max_matches
        = List.take max_matches (pySort confGe (find_matchesPre
            (calculate_confidence m hybrid) primary candidates min_confidence)) from rfl]
    rw [← List.filter_append, List.take_append_drop]
    exact filter_conf_pySort q _

/-! Exceptional behaviour of the orchestrators.  Neither `find_matches` nor
`batch_match` contains a try/except: when scoring one pair raises, the
exception leaves the candidate loop, leaves `find_matches`, and leaves
`batch_match`, losing the work for all remaining pairs.  The scorer is
modelled as returning `Except`; the loops below are the same loops in the
exception monad, with no handler anywhere — faithful to the absence of any
handler in the source. -/

/-- `find_matches` with a fallible scorer: the same candidate loop; a raise
while scoring one candidate aborts the whole call. -/
def find_matchesE (m : Matcher)
    (confE : Product → Product → Except String (ℚ × List String))
    (primary : Product) (candidates : List Product)
    (min_confidence : ℚ) (max_matches : ℕ) : Except String (List ProductMatch) := do
  let pre ← candidates.foldlM (fun acc c =>
    if c.id = primary.id then pure acc
    else do
      let cw ← confE primary c
      if min_confidence ≤ cw.1 then pure (acc ++ [mkProductMatch primary c cw])
      else pure acc) []
  pure ((pySort confGe pre).take max_matches)

/-- One step of the `batch_match` loop: `find_matches` for one primary with
the default `max_matches = 3`, results appended to the accumulator. -/
def batchStep (m : Matcher)
    (confE : Product → Product → Except String (ℚ × List String))
    (candidates : List Product) (min_confidence : ℚ)
    (acc : List ProductMatch) (p : Product) : Except String (List ProductMatch) := do
  let ms ← find_matchesE m confE p candidates min_confidence 3
  pure (acc ++ ms)

/-- `ProductMatcher.batch_match` with a fallible scorer: `find_matches` per
primary in order, results concatenated, no handler. -/
def batch_matchE (m : Matcher)
    (confE : Product → Product → Except String (ℚ × List String))
    (primaries candidates : List Product) (min_confidence : ℚ) :
    Except String (List ProductMatch) :=
  primaries.foldlM (batchStep m confE candidates min_confidence) []

/-- C8 amended: `batch_match` does not catch a scoring exception at the pair
boundary; the first raise propagates out of `batch_match` unchanged, and
nothing after the failing primary is evaluated into the result — if every
primary before `p` scores cleanly and scoring `p` raises `e`, the whole
batch returns that exception instead of a match list. -/
theorem batch_match_propagates (m : Matcher)
    (confE : Product → Product → Except String (ℚ × List String))
    (pre post : List Product) (p : Product) (candidates : List Product)
    (min_confidence : ℚ) (e : String)
    (hok : ∀ q ∈ pre, (find_matchesE m confE q candidates min_confidence 3).isOk = true)
    (herr : find_matchesE m confE p candidates min_confidence 3 = .error e) :
    batch_matchE m confE (pre ++ p :: post) candidates min_confidence = .error e := by
  unfold batch_matchE
  suffices h : ∀ acc : List ProductMatch,
      (pre ++ p :: post).foldlM (batchStep m confE candidates min_confidence) acc
        = .error e from h []
  induction pre with
  | nil =>
      intro acc
      rw [List.nil_append]
      show (batchStep m confE candidates min_confidence acc p >>= fun s =>
        post.foldlM (batchStep m confE candidates min_confidence) s) = .error e
      unfold batchStep
      rw [herr]
      rfl
  | cons q pre2 ih =>
      intro acc
      have hq : (find_matchesE m confE q candidates min_confidence 3).isOk = true :=
        hok q (List.mem_cons_self q pre2)
      rw [List.cons_append]
      show (batchStep m confE candidates min_confidence acc q >>= fun s =>
        (pre2 ++ p :: post).foldlM (batchStep m confE candidates min_confidence) s) = .error e
      cases hfq : find_matchesE m confE q candidates min_confidence 3 with
      | error err =>
          rw [hfq] at hq
          exact absurd hq (by simp [Except.isOk, Except.toBool])
      | ok l =>
          have hstep : batchStep m confE candidates min_confidence acc q = .ok (acc ++ l) := by
            unfold batchStep
            rw [hfq]
            rfl
          rw [hstep]
          show (pre2 ++ p :: post).foldlM (batchStep m confE candidates min_confidence) (acc ++ l)
            = .error e
          exact ih (fun r hr => hok r (List.mem_cons_of_mem q hr)) (acc ++ l)

/-- A scorer that raises on primary id 1 and scores 1.0 otherwise. -/
def boomScorer : Product → Product → Except String (ℚ × List String) :=
  fun p _ => if p.id = 1 then .error "boom" else .ok (1, [])

/-- C8 counterexample: primary 2 against candidate 3 scores cleanly into one
match, but batching primaries 1 and 2 — where scoring the pair (1, 3)
raises — returns the raw exception instead of any match list: the batch is
aborted, primary 2's matches are lost, nothing was caught at the pair
boundary. -/
theorem batch_match_abort_counterexample :
    find_matchesE emptyStore boomScorer ⟨2, "b", none⟩ [⟨3, "c", none⟩] 0 3
        = .ok [mkProductMatch ⟨2, "b", none⟩ ⟨3, "c", none⟩ (1, [])]
    ∧ batch_matchE emptyStore boomScorer [⟨1, "a", none⟩, ⟨2, "b", none⟩] [⟨3, "c", none⟩] 0
        = .error "boom" := by
  constructor
  · rfl
  · rfl

/-- Concrete instance of `batch_match_propagates`: primary 2 scores cleanly,
then primary 1 raises, and the batch returns the exception. -/
theorem batch_match_propagates_witness :
    batch_matchE emptyStore boomScorer
        ([⟨2, "b", none⟩] ++ ⟨1, "a", none⟩ :: []) [⟨3, "c", none⟩] 0
      = .error "boom" :=
  batch_match_propagates emptyStore boomScorer [⟨2, "b", none⟩] []
    ⟨1, "a", none⟩ [⟨3, "c", none⟩] 0 "boom"
    (by decide) (by rfl)

/-! The hybrid similarity scorer. -/

/-- The stop words of `normalize_name`. -/
def stopWords : List String :=
  ["the", "and", "or", "of", "in", "with", "for", "pure", "organic", "fresh", "premium"]

/-- Python `\w` (ASCII): letters, digits, underscore. -/
def isWordChar (c : Char) : Bool := c.isAlphanum || c = '_'

/-- `ProductMatcher.normalize_name`: strip the detected size substring,
lowercase and strip, replace non-word non-space characters by spaces, drop
stop words, rejoin with single spaces. -/
def normalize_name (name : String) : String :=
  let si := extract_size name
  let name1 := if si.original ≠ "" then pyReplace name si.original "" else name
  let name2 := pyStrip (pyLower name1)
  let name3 := String.mk (name2.data.map (fun c => if isWordChar c || isWs c then c else ' '))
  joinSpace ((pySplit name3).filter (fun w => !(stopWords.contains w)))

/-- Longest common subsequence length: the matched-character count
underlying the indel similarity of the external fuzzy scorer. -/
def lcs : List Char → List Char → ℕ
  | [], _ => 0
  | _ :: _, [] => 0
  | a :: as, b :: bs =>
      if a = b then lcs as bs + 1
      else max (lcs (a :: as) bs) (lcs as (b :: bs))
termination_by x y => x.length + y.length

/-- The external `fuzz.ratio` (Levenshtein backend): the normalised indel
similarity `2*LCS/(len1+len2)`; the source divides the percent form by
100.0, yielding exactly this quantity. -/
def fuzzRatio (a b : String) : ℚ :=
  2 * (lcs a.data b.data : ℚ) / ((a.data.length : ℚ) + (b.data.length : ℚ))

/-- Ascending Python `sorted` order on strings. -/
def strLeB (s t : String) : Bool := !(strLtB t s)

/-- `fuzz._process_and_sort` as `token_sort_ratio` applies it to each
argument: keep alphanumerics, lowercase, strip, split, sort the tokens
ascending, rejoin with single spaces. -/
def tokenSortStr (s : String) : String :=
  let processed :=
    pyStrip (pyLower (String.mk (s.data.map (fun c => if c.isAlphanum then c else ' '))))
  joinSpace (pySort strLeB (pySplit processed))

/-- Dot product of two embedding vectors. -/
def dotL (u v : List ℚ) : ℚ := (List.zipWith (fun a b => a * b) u v).sum

/-- Cosine similarity of two embedding vectors, as
`sklearn.cosine_similarity` computes it on the two encodings. -/
noncomputable def cosineSim (u v : List ℚ) : ℝ :=
  ((dotL u v : ℚ) : ℝ) / (Real.sqrt ((dotL u u : ℚ) : ℝ) * Real.sqrt ((dotL v v : ℚ) : ℝ))

/-- `ProductMatcher._extract_brand`: the first brand of the set (in its
iteration order) appearing as a word of the lowercased name or as a
substring of it. -/
def extract_brand (m : Matcher) (name : String) : Option String :=
  m.brand_set.find? (fun brand =>
    (pySplit (pyLower name)).contains (pyLower brand)
      || strContains (pyLower name) (pyLower brand))

/-- Python truthiness of the extracted brand (`None` and `""` are falsy). -/
def brandTruthy : Option String → Bool
  | none => false
  | some s => s ≠ ""

/-- `ProductMatcher.calculate_hybrid_similarity` with the embedding model a
fixed per-name encoding `encode`: normalize both names; an empty normal
form gives 0; no common word gives 0.1; otherwise 0.4 times the cosine
semantic similarity plus 0.6 times the token-sort fuzzy similarity,
followed by the brand adjustment (+0.1 capped at 1 for the same truthy
brand, times 0.85 for two truthy different brands). -/
noncomputable def calculate_hybrid_similarity (m : Matcher) (encode : String → List ℚ)
    (name1 name2 : String) : ℝ :=
  let norm1 := normalize_name name1
  let norm2 := normalize_name name2
  if norm1 = "" ∨ norm2 = "" then 0
  else if !((pySplit norm1).any (fun w => (pySplit norm2).contains w)) then 1/10
  else
    let semantic := cosineSim (encode norm1) (encode norm2)
    let fuzzy := ((fuzzRatio (tokenSortStr norm1) (tokenSortStr norm2) : ℚ) : ℝ)
    let hybrid0 := semantic * (4/10) + fuzzy * (6/10)
    let b1 := extract_brand m name1
    let b2 := extract_brand m name2
    if brandTruthy b1 = true ∧ b1 = b2 then min (hybrid0 + 1/10) 1
    else if brandTruthy b1 = true ∧ brandTruthy b2 = true ∧ b1 ≠ b2 then hybrid0 * (85/100)
    else hybrid0

theorem dotL_comm (u : List ℚ) : ∀ v, dotL u v = dotL v u := by
  induction u with
  | nil =>
      intro v
      cases v <;> simp [dotL]
  | cons a as ih =>
      intro v
      cases v with
      | nil => simp [dotL]
      | cons b bs =>
          simp only [dotL, List.zipWith_cons_cons, List.sum_cons]
          rw [mul_comm]
          have h2 := ih bs
          simp only [dotL] at h2
          rw [h2]

theorem cosineSim_comm (u v : List ℚ) : cosineSim u v = cosineSim v u := by
  unfold cosineSim
  rw [dotL_comm u v, mul_comm]

theorem lcs_comm_aux (n : ℕ) : ∀ a b : List Char, a.length + b.length ≤ n →
    lcs a b = lcs b a := by
  induction n with
  | zero =>
      intro a b h
      cases a with
      | nil =>
          cases b with
          | nil => rfl
          | cons y ys => simp at h
      | cons x xs => simp at h
  | succ k ih =>
      intro a b h
      cases a with
      | nil => cases b <;> simp [lcs]
      | cons x xs =>
          cases b with
          | nil => simp [lcs]
          | cons y ys =>
              by_cases hxy : x = y
              · subst hxy
                have e1 : lcs (x :: xs) (x :: ys) = lcs xs ys + 1 := by simp [lcs]
                have e2 : lcs (x :: ys) (x :: xs) = lcs ys xs + 1 := by simp [lcs]
                rw [e1, e2, ih xs ys (by simp at h ; omega)]
              · have hyx : ¬ (y = x) := fun hh => hxy hh.symm
                simp only [lcs, if_neg hxy, if_neg hyx]
                rw [ih (x :: xs) ys (by simp at h ⊢ ; omega),
                  ih xs (y :: ys) (by simp at h ⊢ ; omega), Nat.max_comm]

theorem lcs_comm (a b : List Char) : lcs a b = lcs b a :=
  lcs_comm_aux (a.length + b.length) a b (le_refl _)

theorem fuzzRatio_comm (a b : String) : fuzzRatio a b = fuzzRatio b a := by
  unfold fuzzRatio
  rw [lcs_comm, add_comm]

theorem anyContains_exists (l1 l2 : List String) :
    l1.any (fun w => l2.contains w) = true ↔ ∃ w, w ∈ l1 ∧ w ∈ l2 := by
  rw [List.any_eq_true]
  constructor
  · rintro ⟨w, hw1, hw2⟩
    exact ⟨w, hw1, List.elem_iff.mp hw2⟩
  · rintro ⟨w, hw1, hw2⟩
    exact ⟨w, hw1, List.elem_iff.mpr hw2⟩

theorem anyContains_comm (l1 l2 : List String) :
    l1.any (fun w => l2.contains w) = l2.any (fun w => l1.contains w) := by
  by_cases h : l1.any (fun w => l2.contains w) = true
  · rw [h]
    obtain ⟨w, hw1, hw2⟩ := (anyContains_exists l1 l2).mp h
    exact ((anyContains_exists l2 l1).mpr ⟨w, hw2, hw1⟩).symm
  · have h1 : l1.any (fun w => l2.contains w) = false := Bool.eq_false_iff.mpr h
    rw [h1]
    by_contra hc
    have h2 : l2.any (fun w => l1.contains w) = true := by
      revert hc ; cases l2.any (fun w => l1.contains w) <;> simp
    obtain ⟨w, hw1, hw2⟩ := (anyContains_exists l2 l1).mp h2
    exact h ((anyContains_exists l1 l2).mpr ⟨w, hw2, hw1⟩)

theorem brandAdjust_symm (b1 b2 : Option String) (h : ℝ) :
    (if brandTruthy b1 = true ∧ b1 = b2 then min (h + 1/10) 1
     else if brandTruthy b1 = true ∧ brandTruthy b2 = true ∧ b1 ≠ b2 then h * (85/100)
     else h)
    = (if brandTruthy b2 = true ∧ b2 = b1 then min (h + 1/10) 1
       else if brandTruthy b2 = true ∧ brandTruthy b1 = true ∧ b2 ≠ b1 then h * (85/100)
       else h) := by
  by_cases he : b1 = b2
  · subst he
    rfl
  · have he2 : ¬ (b2 = b1) := fun hh => he hh.symm
    by_cases ht1 : brandTruthy b1 = true <;> by_cases ht2 : brandTruthy b2 = true <;>
      simp [ht1, ht2, he, he2]

/-- C6: the hybrid similarity is symmetric in its two names, brand
adjustment included, with the embedding model a fixed function of each
name — for every rule store, encoding and name pair. -/
theorem hybrid_similarity_symm (m : Matcher) (encode : String → List ℚ)
    (name1 name2 : String) :
    calculate_hybrid_similarity m encode name1 name2
      = calculate_hybrid_similarity m encode name2 name1 := by
  simp only [calculate_hybrid_similarity]
  by_cases h0 : normalize_name name1 = "" ∨ normalize_name name2 = ""
  · rw [if_pos h0, if_pos (Or.symm h0)]
  · rw [if_neg h0, if_neg (fun hh => h0 (Or.symm hh))]
    have hcw : ((pySplit (normalize_name name2)).any
          (fun w => (pySplit (normalize_name name1)).contains w))
        = ((pySplit (normalize_name name1)).any
          (fun w => (pySplit (normalize_name name2)).contains w)) :=
      anyContains_comm _ _
    rw [show (!((pySplit (normalize_name name2)).any
          (fun w => (pySplit (normalize_name name1)).contains w)))
        = (!((pySplit (normalize_name name1)).any
          (fun w => (pySplit (normalize_name name2)).contains w))) from by rw [hcw]]
    by_cases h1 : (!((pySplit (normalize_name name1)).any
        (fun w => (pySplit (normalize_name name2)).contains w))) = true
    · rw [if_pos h1, if_pos h1]
    · rw [if_neg h1, if_neg h1]
      rw [cosineSim_comm (encode (normalize_name name2)) (encode (normalize_name name1)),
        fuzzRatio_comm (tokenSortStr (normalize_name name2)) (tokenSortStr (normalize_name name1))]
      exact brandAdjust_symm (extract_brand m name1) (extract_brand m name2) _

end PM
